import Mathlib

/-!
Verification development for the text-overlay tool's layout and compositing
core (`text_overlay_tool/render/text_renderer.py` and
`text_overlay_tool_vision.py`).

Shallow embedding conventions:
* Python strings are `List Char`; Python lists of strings are `List (List Char)`.
* Python ints are `ℤ` (unbounded); Python floats appearing in the layout
  arithmetic are modelled as `ℚ`.  At every concrete point evaluated below the
  float computation of the source and the rational computation agree: the
  factors `0.6`, `1.1`, `1.15`, `1.2` are within `2^-52` of their rational
  values, and the compared quantities are at distance at least `0.1` from the
  relevant rounding boundaries, so double rounding cannot change any `int(...)`
  truncation or `<=` comparison.  In particular `int(h * 0.6) = (3*h)/5` and
  `len * fs * 0.6 <= w  ↔  3*len*fs <= 5*w` for the integer ranges involved.
* Python `//` (floor division) is `Int.fdiv`; `int()` on nonnegative values is
  the rational floor.
* Text measurement (`draw.textlength(s, font)` and its documented fallback
  `len(s) * font_size * 0.6`) is abstracted as a boolean predicate
  `fits : List Char → Bool` meaning "the measured width of `s` is within the
  maximum width"; the fallback estimate is the instantiation
  `3 * len * fontSize ≤ 5 * maxWidth`, and a general font is an additive
  per-character width function.
-/

namespace TextOverlay

/-- Source `_is_korean(char)`: Hangul syllables, Jamo, and compatibility Jamo blocks
(`'가' <= c <= '힯' or 'ᄀ' <= c <= 'ᇿ' or
'㄰' <= c <= '㆏'`). -/
def isKorean (c : Char) : Bool :=
  (0xAC00 ≤ c.toNat && c.toNat ≤ 0xD7AF) ||
  (0x1100 ≤ c.toNat && c.toNat ≤ 0x11FF) ||
  (0x3130 ≤ c.toNat && c.toNat ≤ 0x318F)

/-- Python `str.isspace()` restricted to the ASCII whitespace characters that
can occur in the tool's inputs (space, tab, newline, vertical tab, form feed,
carriage return). -/
def pyIsSpace (c : Char) : Bool :=
  c = ' ' || c = '\t' || c = '\n' || c = '\x0b' || c = '\x0c' || c = '\r'

/-! ### Character-boundary wrapping: `wrap_text_for_box`

The Python function scans the text once.  `\n` forces a break; a Hangul
character is appended alone; a whitespace character is appended alone; a
maximal run of other characters is scanned ahead as one word (the local
variable `word`, which persists across loop iterations).  Each candidate is
measured; on overflow the current line is flushed.  In the overflow branches
the new content is `char if _is_korean(char) else word` — for a whitespace
`char` this reads the *stale* `word` from an earlier iteration (or raises
`NameError` if no word was seen yet, which the outer `except` turns into
`[text]`).

We embed the scan as a character-at-a-time automaton: the looked-ahead word of
the source is accumulated in a `pending` register and processed when the run
ends, which performs exactly the same steps in the same order. -/

/-- State of the `wrap_text_for_box` loop: accumulated `lines`, the
`current_line`, and the Python local `word` (the last completed Latin word,
`none` before any word was assigned). -/
structure CWState where
  lines : List (List Char)
  cur : List Char
  stale : Option (List Char)
  deriving Repr, DecidableEq

/-- Processing of one completed non-Hangul non-space word `w` (the body of the
`else` arm of the source's character dispatch, with `test_line = current_line
+ word`).  Always assigns the `word` register. -/
def cwFlushWord (fits : List Char → Bool) (st : CWState) (w : List Char) : CWState :=
  if fits (st.cur ++ w) then
    { st with cur := st.cur ++ w, stale := some w }
  else if st.cur.isEmpty then
    { lines := st.lines ++ [w], cur := [], stale := some w }
  else
    { lines := st.lines ++ [st.cur], cur := w, stale := some w }

/-- Processing of one boundary character: `'\n'` (unconditional break), a
Hangul character (appended alone), or a whitespace character.  The whitespace
overflow branch writes `char if _is_korean(char) else word`, i.e. the stale
`word`; `none` models the `NameError` raised when `word` was never assigned. -/
def cwStep (fits : List Char → Bool) (st : CWState) (c : Char) : Option CWState :=
  if c = '\n' then
    some { st with lines := st.lines ++ [st.cur], cur := [] }
  else if isKorean c then
    if fits (st.cur ++ [c]) then
      some { st with cur := st.cur ++ [c] }
    else if st.cur.isEmpty then
      some { st with lines := st.lines ++ [[c]], cur := [] }
    else
      some { st with lines := st.lines ++ [st.cur], cur := [c] }
  else
    if fits (st.cur ++ [c]) then
      some { st with cur := st.cur ++ [c] }
    else
      match st.stale with
      | none => none
      | some w =>
        if st.cur.isEmpty then
          some { st with lines := st.lines ++ [w], cur := [] }
        else
          some { st with lines := st.lines ++ [st.cur], cur := w }

/-- The main scan.  `pending` holds the partially accumulated Latin word
(the source builds it by looking ahead inside one loop iteration; we build it
character by character, flushing it when its run ends — the same measurements
happen in the same order). -/
def cwRun (fits : List Char → Bool) :
    List Char → CWState → Option (List Char) → Option CWState
  | [], st, none => some st
  | [], st, some w => some (cwFlushWord fits st w)
  | c :: rest, st, pending =>
    if !(isKorean c) && !(pyIsSpace c) then
      cwRun fits rest st (some ((pending.getD []) ++ [c]))
    else
      let st1 := match pending with
        | none => st
        | some w => cwFlushWord fits st w
      match cwStep fits st1 c with
      | none => none
      | some st2 => cwRun fits rest st2 none

/-- Source `wrap_text_for_box(text, max_width, font_size, font)` with the width test
abstracted as `fits`.  Empty or whitespace-only text returns `[""]`; a
`NameError` from the stale `word` (and any other internal exception) is caught
by the outer `except` and yields `[text]`; otherwise the final
`current_line` is flushed if non-empty and `lines if lines else [text]` is
returned. -/
def wrap_text_for_box (fits : List Char → Bool) (text : List Char) :
    List (List Char) :=
  if text.all pyIsSpace then [[]]
  else
    match cwRun fits text ⟨[], [], none⟩ none with
    | none => [text]
    | some st =>
      let lines := if st.cur.isEmpty then st.lines else st.lines ++ [st.cur]
      if lines.isEmpty then [text] else lines

/-! ### Word-boundary wrapping: `wrap_text_for_overlay_safe_word` -/

/-- Python `text.split('\n')`. -/
def splitOnNl : List Char → List (List Char)
  | [] => [[]]
  | c :: rest =>
    let r := splitOnNl rest
    if c = '\n' then [] :: r
    else
      match r with
      | [] => [[c]]
      | h :: tl => (c :: h) :: tl

/-- Helper for Python `str.split()` (split on whitespace runs, no empty
words); `pending` is the word currently being accumulated. -/
def splitWsGo : List Char → Option (List Char) → List (List Char)
  | [], none => []
  | [], some w => [w]
  | c :: rest, pending =>
    if pyIsSpace c then
      match pending with
      | none => splitWsGo rest none
      | some w => w :: splitWsGo rest none
    else
      splitWsGo rest (some ((pending.getD []) ++ [c]))

/-- Python `paragraph.split()`. -/
def splitWs (t : List Char) : List (List Char) := splitWsGo t none

/-- The greedy word loop of `wrap_text_for_overlay_safe_word`:
`test_line = current_line + (" " if current_line else "") + word`; on fit the
word is absorbed, on overflow a non-empty current line is flushed and the word
starts the next line, and an oversized word with no current line is flushed
alone.  The last line is flushed after the loop. -/
def wrapWordGo (fits : List Char → Bool) :
    List (List Char) → List (List Char) → List Char → List (List Char)
  | [], lines, cur => if cur.isEmpty then lines else lines ++ [cur]
  | w :: ws, lines, cur =>
    let test := if cur.isEmpty then w else cur ++ ' ' :: w
    if fits test then wrapWordGo fits ws lines test
    else if cur.isEmpty then wrapWordGo fits ws (lines ++ [w]) []
    else wrapWordGo fits ws (lines ++ [cur]) w

/-- The paragraph loop: blank paragraphs (empty after `strip()`) contribute an
explicit empty line; others are word-wrapped greedily. -/
def wrapWordCore (fits : List Char → Bool) (text : List Char) :
    List (List Char) :=
  (splitOnNl text).foldl
    (fun lines p =>
      if p.all pyIsSpace then lines ++ [[]]
      else wrapWordGo fits (splitWs p) lines [])
    []

/-- Source `wrap_text_for_overlay_safe_word(text, max_width, font_size, font)` with
the width test abstracted as `fits`.  The source clamps
`max_width = max(20, int(max_width))` and `font_size = max(6, int(font_size))`
before building `fits`; the clamps live in the instantiations below.  Returns
`[""]` for empty/whitespace-only text and `lines if lines else [text]`
otherwise. -/
def wrap_text_for_overlay_safe_word (fits : List Char → Bool)
    (text : List Char) : List (List Char) :=
  if text.all pyIsSpace then [[]]
  else
    let lines := wrapWordCore fits text
    if lines.isEmpty then [text] else lines

/-! ### Measurement instantiations -/

/-- A font is abstracted as an additive per-character pixel width; the width
of a line is the sum of its characters' widths (the behaviour of
`draw.textlength` up to kerning, and exactly the documented fallback when the
width function is constant). -/
def lineW (cw : Char → ℕ) (s : List Char) : ℕ := (s.map cw).sum

/-- Width test "measured width of `s` is at most `W`" for an additive font
`cw` and a threshold `W`. -/
def wordFits (cw : Char → ℕ) (W : ℤ) (s : List Char) : Bool :=
  decide ((lineW cw s : ℤ) ≤ W)

/-- Instance of `wrap_text_for_box` with the documented fallback measurement
`len(test_line) * font_size * 0.6 <= max_width`, i.e.
`3 * len * font_size ≤ 5 * max_width` (no clamping of either argument in the
character-boundary engine). -/
def wrapCharFallback (maxWidth fontSize : ℤ) (text : List Char) :
    List (List Char) :=
  wrap_text_for_box
    (fun s => decide (3 * (s.length : ℤ) * fontSize ≤ 5 * maxWidth)) text

/-- Instance of `wrap_text_for_overlay_safe_word` with the documented fallback
measurement, including the source's clamps `max(20, max_width)` and
`max(6, font_size)`. -/
def wrapWordFallback (maxWidth fontSize : ℤ) (text : List Char) :
    List (List Char) :=
  wrap_text_for_overlay_safe_word
    (fun s => decide (3 * (s.length : ℤ) * max 6 fontSize ≤ 5 * max 20 maxWidth))
    text

/-! ### Box clamping and effective font size

`draw_korean_text`, `draw_korean_text_optimized` and `save_with_pil_hires`
all start by clamping the target box into the image with a 2px minimum and
computing `font_size = max(8, min(int(box_height * 0.6), int(region.font_size)))`.
For the nonnegative heights produced by the clamp, `int(h * 0.6)` equals
`(3 * h) // 5` (see the float-fidelity note at the top). -/

/-- The rendering-path safety clamp (`x2 = max(x1 + 2, ...)`, 2px minimum). -/
def clampBox (imgW imgH x1 y1 x2 y2 : ℤ) : ℤ × ℤ × ℤ × ℤ :=
  let x1' := max 0 (min x1 (imgW - 2))
  let y1' := max 0 (min y1 (imgH - 2))
  let x2' := max (x1' + 2) (min x2 (imgW - 1))
  let y2' := max (y1' + 2) (min y2 (imgH - 1))
  (x1', y1', x2', y2')

/-- Source `max(8, min(int(box_height * 0.6), font_size))`. -/
def effFontSize (boxHeight fontSize : ℤ) : ℤ :=
  max 8 (min (Int.fdiv (3 * boxHeight) 5) fontSize)

/-- The export path's bold size inflation
(`if bold_level >= 1: eff = int(eff * 1.1)`;
`if bold_level >= 2: eff = int(eff * 1.15)`); for the nonnegative sizes
involved `int(f * 1.1) = (11 * f) // 10` and `int(f * 1.15) = (23 * f) // 20`
(float-fidelity note at the top). -/
def boldInflate (boldLevel fontSize : ℤ) : ℤ :=
  let f1 := if 1 ≤ boldLevel then Int.fdiv (11 * fontSize) 10 else fontSize
  if 2 ≤ boldLevel then Int.fdiv (23 * f1) 20 else f1

/-- Effective layout font size of the interactive preview
(`draw_korean_text_optimized`, identical in `draw_korean_text`): clamp the box
into the `imgW × imgH` image, then `max(8, min(int(h*0.6), font_size))`. -/
def previewLayoutFontSize (imgW imgH x1 y1 x2 y2 fontSize : ℤ) : ℤ :=
  let c := clampBox imgW imgH x1 y1 x2 y2
  effFontSize (c.2.2.2 - c.2.1) fontSize

/-- Effective layout font size of `save_with_pil_hires`: the bbox and image
are scaled by 2, clamped in the scaled image, then
`max(8, min(int(h2*0.6), int(font_size * 2)))`. -/
def exportLayoutFontSize (imgW imgH x1 y1 x2 y2 fontSize : ℤ) : ℤ :=
  let c := clampBox (2 * imgW) (2 * imgH) (2 * x1) (2 * y1) (2 * x2) (2 * y2)
  effFontSize (c.2.2.2 - c.2.1) (2 * fontSize)

/-! ### Vertical overflow adjustment (lines 1031-1063 of the source) -/

/-- Result of the overflow adjustment: the font size actually used, the line
height, the total block height, and the wrapped lines. -/
structure FitResult where
  fontSize : ℤ
  lineHeight : ℤ
  totalHeight : ℤ
  lines : List (List Char)
  deriving Repr, DecidableEq

/-- The source's height-fit block.  `wrapAt f` is the wrap of the region text
at wrap width `wrap_width` and font size `f` (the wrap width is fixed, only
the font size changes on re-wrap).  `line_height = int(int(fs*1.0) *
line_spacing)` is `⌊fs * spacing⌋`; `available_height // len` is `Int.fdiv`;
the scale factor step is `font_size = max(8, int(font_size * (avail /
total)))`.  On still-overflow the text is re-wrapped once at the new size and
line height and total height are recomputed from the new line count. -/
def adjustHeight (wrapAt : ℤ → List (List Char)) (fs : ℤ) (spacing : ℚ)
    (availH : ℤ) : FitResult :=
  let lines0 := wrapAt fs
  let lh0 : ℤ := ⌊(fs : ℚ) * spacing⌋
  let n0 : ℤ := lines0.length
  if n0 * lh0 ≤ availH then ⟨fs, lh0, n0 * lh0, lines0⟩
  else
    let lh1 := max fs (Int.fdiv availH n0)
    if n0 * lh1 ≤ availH then ⟨fs, lh1, n0 * lh1, lines0⟩
    else
      let fs1 := max 8 ⌊(fs : ℚ) * ((availH : ℚ) / ((n0 * lh1 : ℤ) : ℚ))⌋
      let lines1 := wrapAt fs1
      let n1 : ℤ := lines1.length
      let lh2 := max fs1 (Int.fdiv availH n1)
      ⟨fs1, lh2, n1 * lh2, lines1⟩

/-! ### Per-line truncation (lines 1090-1123 preview, 5539-5549 export) -/

/-- The vertical-overflow test guarding truncation:
`text_y + font_size > text_y2 + tolerance`.  It does not depend on the text
of the line. -/
def vOverflow (textY fontSize textY2 tolerance : ℤ) : Bool :=
  decide (textY2 + tolerance < textY + fontSize)

/-- One bounded run of the source's `while truncated_text and text_y +
font_size > text_y2 + tolerance: truncated_text = truncated_text[:-1]` loop;
the fuel is the length of the line, which bounds the iteration count since
each pass drops exactly one character. -/
def truncateGo (overflow : Bool) : ℕ → List Char → List Char
  | 0, t => t
  | n + 1, t => if !t.isEmpty && overflow then truncateGo overflow n t.dropLast else t

/-- The truncation loop on a whole line. -/
def truncateLoop (overflow : Bool) (t : List Char) : List Char :=
  truncateGo overflow t.length t

def ellipsis : List Char := ['.', '.', '.']

/-- What the preview paths draw for one line, given its vertical-overflow
status: a fitting line is drawn as is; an overflowing line goes through the
truncation loop and is drawn with `"..."` appended only if non-empty. -/
def previewDrawnLine (overflow : Bool) (line : List Char) : Option (List Char) :=
  if overflow then
    let tr := truncateLoop overflow line
    if tr.isEmpty then none else some (tr ++ ellipsis)
  else some line

/-- What `save_with_pil_hires` draws for one line: it has no truncation
branch, an overflowing line is simply skipped. -/
def exportDrawnLine (overflow : Bool) (line : List Char) : Option (List Char) :=
  if overflow then none else some line

/-! ### Interactive bbox mutation (`move_text_box`, `resize_text_box`) -/

/-- The trailing safety clamp shared by `move_text_box` (lines 2232-2235) and
`resize_text_box` (lines 2349-2352): note the 1px minimum
(`x2 = max(x1 + 1, ...)`), unlike the 2px minimum of the rendering clamp. -/
def safeClampBBox (imgW imgH x1 y1 x2 y2 : ℤ) : ℤ × ℤ × ℤ × ℤ :=
  let x1' := max 0 (min x1 (imgW - 2))
  let y1' := max 0 (min y1 (imgH - 2))
  let x2' := max (x1' + 1) (min x2 (imgW - 1))
  let y2' := max (y1' + 1) (min y2 (imgH - 1))
  (x1', y1', x2', y2')

/-- Source `move_text_box`: translate the drag-start bbox by `(dx, dy)`, clamp the
top-left into `[0, img - size]` keeping the size, then apply the safety
clamp. -/
def moveBBox (imgW imgH : ℤ) (bbox : ℤ × ℤ × ℤ × ℤ) (dx dy : ℤ) :
    ℤ × ℤ × ℤ × ℤ :=
  let w := bbox.2.2.1 - bbox.1
  let h := bbox.2.2.2 - bbox.2.1
  let nx1 := max 0 (min (bbox.1 + dx) (imgW - w))
  let ny1 := max 0 (min (bbox.2.1 + dy) (imgH - h))
  safeClampBBox imgW imgH nx1 ny1 (nx1 + w) (ny1 + h)

inductive ResizeHandle
  | se | ne | sw | nw
  deriving Repr, DecidableEq

/-- Source `resize_text_box` with `min_size = 30`: per-handle adjustment of the
dragged corner, clamped to the image and the 30px minimum, followed by the
safety clamp. -/
def resizeBBox (imgW imgH : ℤ) (bbox : ℤ × ℤ × ℤ × ℤ) (dx dy : ℤ) :
    ResizeHandle → ℤ × ℤ × ℤ × ℤ :=
  let x1 := bbox.1
  let y1 := bbox.2.1
  let x2 := bbox.2.2.1
  let y2 := bbox.2.2.2
  fun h =>
    match h with
    | .se =>
      let nx2 := max (x1 + 30) (min (max (x1 + 30) (x2 + dx)) imgW)
      let ny2 := max (y1 + 30) (min (max (y1 + 30) (y2 + dy)) imgH)
      safeClampBBox imgW imgH x1 y1 nx2 ny2
    | .ne =>
      let nx2 := max (x1 + 30) (min (max (x1 + 30) (x2 + dx)) imgW)
      let ny1 := max 0 (min (min (y2 - 30) (y1 + dy)) (y2 - 30))
      safeClampBBox imgW imgH x1 ny1 nx2 y2
    | .sw =>
      let nx1 := max 0 (min (min (x2 - 30) (x1 + dx)) (x2 - 30))
      let ny2 := max (y1 + 30) (min (max (y1 + 30) (y2 + dy)) imgH)
      safeClampBBox imgW imgH nx1 y1 x2 ny2
    | .nw =>
      let nx1 := max 0 (min (min (x2 - 30) (x1 + dx)) (x2 - 30))
      let ny1 := max 0 (min (min (y2 - 30) (y1 + dy)) (y2 - 30))
      safeClampBBox imgW imgH nx1 ny1 x2 y2

/-! ### Font resolution (`load_font_for_overlay`, `_load_pil_font_with_bold`)

The filesystem is abstracted as two predicates: `present p` models
`os.path.exists(p)` and `loadable p` models "`ImageFont.truetype(p, size)`
succeeds".  `rp` models `resource_path` (an arbitrary path transformer; the
source checks existence on the raw path but loads through `resource_path`).
A font handle records the file the handle was loaded from, or the built-in
default of `ImageFont.load_default()`. -/

inductive FontHandle
  | file (path : String) (size : ℤ)
  | builtin
  deriving Repr, DecidableEq

/-- The custom-font registry `{display name: file path}`. -/
abbrev CustomFonts := List (String × String)

def sysFontNames : List String :=
  ["Arial", "Times New Roman", "Courier New", "굴림", "맑은 고딕", "나눔고딕"]

/-- The per-family candidate path lists of `load_font_for_overlay` (the
first 굴림/맑은 고딕/나눔고딕 entries are already `resource_path`-wrapped in
the source; `resource_path` is idempotent on absolute paths). -/
def sysFontPaths (rp : String → String) : String → List String
  | "Arial" => ["fonts/arial.ttf", "C:/Windows/Fonts/arial.ttf"]
  | "Times New Roman" => ["fonts/times.ttf", "C:/Windows/Fonts/times.ttf"]
  | "Courier New" => ["fonts/cour.ttf", "C:/Windows/Fonts/cour.ttf"]
  | "굴림" => [rp "fonts/gulim.ttc", "C:/Windows/Fonts/gulim.ttc",
              "C:/Windows/Fonts/NGULIM.TTF"]
  | "맑은 고딕" => [rp "fonts/malgun.ttf", "C:/Windows/Fonts/malgun.ttf",
                  "C:/Windows/Fonts/malgunbd.ttf", "C:/Windows/Fonts/malgunsl.ttf"]
  | "나눔고딕" => [rp "fonts/NanumGothic.ttf", "C:/Windows/Fonts/NanumGothic.ttf"]
  | _ => []

/-- The ordered default fallback list. -/
def defaultFontPaths (rp : String → String) : List String :=
  [rp "fonts/NanumGothic.ttf", rp "fonts/malgun.ttf", rp "fonts/gulim.ttc",
   "C:/Windows/Fonts/NanumGothic.ttf", "C:/Windows/Fonts/malgun.ttf",
   "C:/Windows/Fonts/gulim.ttc", "C:/Windows/Fonts/batang.ttc",
   "C:/Windows/Fonts/dotum.ttc"]

/-- The candidate loop of `load_font_for_overlay`: `if os.path.exists(p):
try: return ImageFont.truetype(resource_path(p), size) except: continue`. -/
def tryPaths (present loadable : String → Bool) (rp : String → String)
    (size : ℤ) : List String → Option FontHandle
  | [] => none
  | p :: rest =>
    if present p && loadable (rp p) then some (.file (rp p) size)
    else tryPaths present loadable rp size rest

/-- Source `load_font_for_overlay(font_family, font_size)` of the canvas (and, with
the same resolution order, the module-level version): custom registry first,
then the per-family system candidates, then the default fallbacks, then the
built-in default font. -/
def load_font_for_overlay (present loadable : String → Bool)
    (rp : String → String) (customFonts : CustomFonts)
    (family : String) (size : ℤ) : FontHandle :=
  let custom :=
    match customFonts.lookup family with
    | some p => if present p && loadable p then some (FontHandle.file p size) else none
    | none => none
  match custom with
  | some h => h
  | none =>
    let sys :=
      if family ∈ sysFontNames then
        tryPaths present loadable rp size (sysFontPaths rp family)
      else none
    match sys with
    | some h => h
    | none =>
      match tryPaths present loadable rp size (defaultFontPaths rp) with
      | some h => h
      | none => .builtin

/-- The `(base_paths, bold_paths, extra_paths)` of
`_load_pil_font_with_bold`; `localAppData` models `%LOCALAPPDATA%` and path
joining is string concatenation on abstract paths. -/
def boldFontCandidates (rp : String → String) (localAppData : String)
    (family : String) : List String × List String × List String :=
  if family = "나눔고딕" ∨ family = "NanumGothic" then
    ([localAppData ++ "/Microsoft/Windows/Fonts/NanumGothic.ttf",
      rp "fonts/NanumGothic.ttf"],
     [localAppData ++ "/Microsoft/Windows/Fonts/NanumGothicBold.ttf"],
     [localAppData ++ "/Microsoft/Windows/Fonts/NanumGothicExtraBold.ttf",
      localAppData ++ "/Microsoft/Windows/Fonts/NanumGothicBold.ttf"])
  else if family = "맑은 고딕" ∨ family = "Malgun Gothic" then
    (["C:/Windows/Fonts/malgun.ttf", rp "fonts/malgun.ttf"],
     ["C:/Windows/Fonts/malgunbd.ttf"],
     ["C:/Windows/Fonts/malgunbd.ttf"])
  else if family = "굴림" ∨ family = "Gulim" then
    (["C:/Windows/Fonts/gulim.ttc", rp "fonts/gulim.ttc"],
     ["C:/Windows/Fonts/gulim.ttc"],
     ["C:/Windows/Fonts/gulim.ttc"])
  else if family = "Arial" then
    (["C:/Windows/Fonts/arial.ttf"],
     ["C:/Windows/Fonts/arialbd.ttf"],
     ["C:/Windows/Fonts/arialbd.ttf"])
  else if family = "Times New Roman" then
    (["C:/Windows/Fonts/times.ttf"],
     ["C:/Windows/Fonts/timesbd.ttf"],
     ["C:/Windows/Fonts/timesbd.ttf"])
  else ([], [], [])

/-- The candidate loop of `_load_pil_font_with_bold`: it loads the raw path
(no `resource_path`). -/
def tryPathsRaw (present loadable : String → Bool) (size : ℤ) :
    List String → Option FontHandle
  | [] => none
  | p :: rest =>
    if present p && loadable p then some (.file p size)
    else tryPathsRaw present loadable size rest

/-- Source `_load_pil_font_with_bold(font_family, font_size, bold_level)`:
`candidate_paths = (extra if bold_level >= 2) ++ (bold if bold_level >= 1) ++
base`; the first present-and-loadable candidate wins, otherwise it falls back
to the canvas `load_font_for_overlay` (which is where the custom registry is
first consulted). -/
def loadPilFontWithBold (present loadable : String → Bool)
    (rp : String → String) (localAppData : String) (customFonts : CustomFonts)
    (family : String) (size boldLevel : ℤ) : FontHandle :=
  let c := boldFontCandidates rp localAppData family
  let cands := (if 2 ≤ boldLevel then c.2.2 else []) ++
               (if 1 ≤ boldLevel then c.2.1 else []) ++ c.1
  match tryPathsRaw present loadable size cands with
  | some h => h
  | none => load_font_for_overlay present loadable rp customFonts family size

/-- Specification form of the plain resolver's search order: each candidate
is a pair (path checked for existence, path actually loaded). -/
def resolverCandidates (rp : String → String) (customFonts : CustomFonts)
    (family : String) : List (String × String) :=
  (match customFonts.lookup family with
   | some p => [(p, p)]
   | none => []) ++
  (if family ∈ sysFontNames then
    (sysFontPaths rp family).map (fun p => (p, rp p))
   else []) ++
  (defaultFontPaths rp).map (fun p => (p, rp p))

/-- First usable candidate of a (check, load) pair list. -/
def firstUsable (present loadable : String → Bool) :
    List (String × String) → Option String
  | [] => none
  | (c, l) :: rest =>
    if present c && loadable l then some l else firstUsable present loadable rest

/-! ### Helper lemmas -/

/-- When the overflow condition is true (it does not depend on the text), the
truncation loop strips the whole line. -/
theorem truncateGo_true_eq_nil (n : ℕ) (t : List Char) (h : t.length ≤ n) :
    truncateGo true n t = [] := by
  induction n generalizing t with
  | zero =>
    have ht : t = [] := List.eq_nil_of_length_eq_zero (Nat.le_zero.mp h)
    subst ht
    rfl
  | succ n ih =>
    cases t with
    | nil => rfl
    | cons c cs =>
      have hlen : (c :: cs).dropLast.length ≤ n := by
        rw [List.length_dropLast]
        simp only [List.length_cons] at h ⊢
        omega
      have hcond : (!(c :: cs).isEmpty && true) = true := by simp
      simp only [truncateGo, hcond, if_true]
      exact ih _ hlen

/-- Bounds satisfied by a target box after the interactive safety clamp:
inside the image (pixel coordinates up to `img - 1`) with positive width and
height. -/
def bboxWithin (imgW imgH : ℤ) (b : ℤ × ℤ × ℤ × ℤ) : Prop :=
  0 ≤ b.1 ∧ b.1 + 1 ≤ b.2.2.1 ∧ b.2.2.1 ≤ imgW - 1 ∧
  0 ≤ b.2.1 ∧ b.2.1 + 1 ≤ b.2.2.2 ∧ b.2.2.2 ≤ imgH - 1

instance (imgW imgH : ℤ) (b : ℤ × ℤ × ℤ × ℤ) :
    Decidable (bboxWithin imgW imgH b) := by
  unfold bboxWithin
  infer_instance

theorem safeClampBBox_within (imgW imgH x1 y1 x2 y2 : ℤ)
    (hw : 2 ≤ imgW) (hh : 2 ≤ imgH) :
    bboxWithin imgW imgH (safeClampBBox imgW imgH x1 y1 x2 y2) := by
  simp only [safeClampBBox, bboxWithin]
  omega

/-- The candidate loop of `load_font_for_overlay` returns the first usable
path of its list, loading through `resource_path`. -/
theorem tryPaths_eq_firstUsable (present loadable : String → Bool)
    (rp : String → String) (size : ℤ) (ps : List String) :
    tryPaths present loadable rp size ps =
      (firstUsable present loadable (ps.map fun p => (p, rp p))).map
        (fun l => FontHandle.file l size) := by
  induction ps with
  | nil => rfl
  | cons p rest ih =>
    simp only [tryPaths, List.map_cons, firstUsable]
    by_cases h : (present p && loadable (rp p)) = true <;> simp [h, ih]

theorem firstUsable_nil (present loadable : String → Bool) :
    firstUsable present loadable [] = none := rfl

theorem firstUsable_cons (present loadable : String → Bool) (c l : String)
    (rest : List (String × String)) :
    firstUsable present loadable ((c, l) :: rest) =
      if present c && loadable l then some l
      else firstUsable present loadable rest := rfl

theorem firstUsable_append (present loadable : String → Bool)
    (a b : List (String × String)) :
    firstUsable present loadable (a ++ b) =
      match firstUsable present loadable a with
      | some l => some l
      | none => firstUsable present loadable b := by
  induction a with
  | nil => simp [firstUsable]
  | cons hd tl ih =>
    obtain ⟨c, l⟩ := hd
    simp only [List.cons_append, firstUsable]
    by_cases h : (present c && loadable l) = true <;> simp [h, ih]

/-! ### Greedy grouping view of the word-boundary wrap

To reason about the line count of `wrapWordGo` we recast the greedy loop as a
partition of the word list into consecutive groups: a group starts with one
word and is extended while the joined line still fits.  `joinWords` is the
line a group denotes (words separated by single spaces, as the loop builds
`current_line`). -/

def joinWords : List (List Char) → List Char
  | [] => []
  | [w] => w
  | w :: ws => w ++ ' ' :: joinWords ws

/-- Number of additional words greedily absorbed into the group `blk`. -/
def extSize (fits : List Char → Bool) : List (List Char) → List (List Char) → ℕ
  | _, [] => 0
  | blk, r :: rest =>
    if fits (joinWords (blk ++ [r])) then 1 + extSize fits (blk ++ [r]) rest
    else 0

/-- Size of the greedy group starting the word list: a fitting first word is
extended greedily; a non-fitting first word is flushed alone. -/
def grpSize (fits : List Char → Bool) : List (List Char) → ℕ
  | [] => 0
  | w :: rest => if fits w then 1 + extSize fits [w] rest else 1

theorem grpSize_pos (fits : List Char → Bool) (w : List Char)
    (rest : List (List Char)) : 1 ≤ grpSize fits (w :: rest) := by
  simp only [grpSize]
  split <;> omega

/-- Number of greedy groups of a word list. -/
theorem drop_grpSize_length_lt (fits : List Char → Bool) (w : List Char)
    (rest : List (List Char)) :
    ((w :: rest).drop (grpSize fits (w :: rest))).length < (w :: rest).length := by
  simp only [List.length_drop, List.length_cons]
  have := grpSize_pos fits w rest
  omega

def chunkCount (fits : List Char → Bool) (ws : List (List Char)) : ℕ :=
  match ws with
  | [] => 0
  | w :: rest =>
    1 + chunkCount fits ((w :: rest).drop (grpSize fits (w :: rest)))
termination_by ws.length
decreasing_by
  simp_wf
  exact grpSize_pos fits _ _

theorem chunkCount_nil (fits : List Char → Bool) : chunkCount fits [] = 0 := by
  rw [chunkCount.eq_def]

theorem chunkCount_cons (fits : List Char → Bool) (w : List Char)
    (rest : List (List Char)) :
    chunkCount fits (w :: rest) =
      1 + chunkCount fits ((w :: rest).drop (grpSize fits (w :: rest))) := by
  rw [chunkCount.eq_def]

theorem joinWords_cons (w : List Char) (ws : List (List Char)) (h : ws ≠ []) :
    joinWords (w :: ws) = w ++ ' ' :: joinWords ws := by
  cases ws with
  | nil => exact absurd rfl h
  | cons x xs => rfl

theorem joinWords_append_single (blk : List (List Char)) (r : List Char)
    (h : blk ≠ []) : joinWords (blk ++ [r]) = joinWords blk ++ ' ' :: r := by
  induction blk with
  | nil => exact absurd rfl h
  | cons x blk' ih =>
    cases blk' with
    | nil => rfl
    | cons y ys =>
      have h1 : (y :: ys) ++ [r] ≠ [] := by simp
      rw [List.cons_append, joinWords_cons x ((y :: ys) ++ [r]) h1, ih (by simp),
        joinWords_cons x (y :: ys) (by simp)]
      simp [List.append_assoc]

theorem joinWords_append_single_ne_nil (blk : List (List Char)) (r : List Char)
    (h : blk ≠ []) : joinWords (blk ++ [r]) ≠ [] := by
  rw [joinWords_append_single blk r h]
  simp

/-! Width monotonicity of joined lines: dropping words from either end never
increases the measured width (`lineW` is additive and nonnegative). -/

theorem lineW_append (cw : Char → ℕ) (x y : List Char) :
    lineW cw (x ++ y) = lineW cw x + lineW cw y := by
  simp [lineW, List.map_append, List.sum_append]

theorem lineW_joinWords_le_left (cw : Char → ℕ) (a b : List (List Char)) :
    lineW cw (joinWords b) ≤ lineW cw (joinWords (a ++ b)) := by
  induction a with
  | nil => simp
  | cons x a' ih =>
    by_cases hb : a' ++ b = []
    · rcases List.append_eq_nil.mp hb with ⟨h1, h2⟩
      subst h1; subst h2
      simp [joinWords, lineW]
    · calc lineW cw (joinWords b) ≤ lineW cw (joinWords (a' ++ b)) := ih
        _ ≤ lineW cw (joinWords ((x :: a') ++ b)) := by
            rw [List.cons_append, joinWords_cons x (a' ++ b) hb, lineW_append]
            simp only [lineW, List.map_cons, List.sum_cons]
            omega

theorem lineW_joinWords_le_right (cw : Char → ℕ) (a b : List (List Char)) :
    lineW cw (joinWords a) ≤ lineW cw (joinWords (a ++ b)) := by
  induction a with
  | nil => simp [joinWords, lineW]
  | cons x a' ih =>
    cases ha' : a' with
    | nil =>
      cases b with
      | nil => simp
      | cons y ys =>
        rw [List.cons_append, List.nil_append,
          joinWords_cons x (y :: ys) (by simp), lineW_append]
        simp [joinWords, lineW]
    | cons z zs =>
      rw [← ha']
      have h1 : a' ≠ [] := by rw [ha']; simp
      have h2 : a' ++ b ≠ [] := by
        intro hc
        exact h1 (List.append_eq_nil.mp hc).1
      rw [List.cons_append, joinWords_cons x a' h1, joinWords_cons x (a' ++ b) h2,
        lineW_append, lineW_append]
      have : lineW cw (' ' :: joinWords a') ≤ lineW cw (' ' :: joinWords (a' ++ b)) := by
        simp only [lineW, List.map_cons, List.sum_cons]
        exact Nat.add_le_add_left (ih) _
      omega

theorem lineW_joinWords_infix (cw : Char → ℕ) (a b c : List (List Char)) :
    lineW cw (joinWords b) ≤ lineW cw (joinWords (a ++ b ++ c)) := by
  calc lineW cw (joinWords b) ≤ lineW cw (joinWords (b ++ c)) :=
        lineW_joinWords_le_right cw b c
    _ ≤ lineW cw (joinWords (a ++ (b ++ c))) := lineW_joinWords_le_left cw a (b ++ c)
    _ = lineW cw (joinWords (a ++ b ++ c)) := by rw [List.append_assoc]

theorem isEmpty_false_of_ne_nil {α : Type} {l : List α} (h : l ≠ []) :
    l.isEmpty = false := by
  cases l with
  | nil => exact absurd rfl h
  | cons a as => rfl

/-- Flushed lines only accumulate: the output length of the greedy word loop
is the accumulator's length plus the length from an empty accumulator. -/
theorem wrapWordGo_length_acc (fits : List Char → Bool) :
    ∀ (ws lines : List (List Char)) (cur : List Char),
    (wrapWordGo fits ws lines cur).length =
      lines.length + (wrapWordGo fits ws [] cur).length := by
  intro ws
  induction ws with
  | nil =>
    intro lines cur
    by_cases h : cur.isEmpty = true <;> simp [wrapWordGo, h]
  | cons w ws ih =>
    intro lines cur
    simp only [wrapWordGo]
    by_cases hf : fits (if cur.isEmpty then w else cur ++ ' ' :: w) = true
    · simp only [hf, if_true]
      exact ih lines _
    · simp only [hf, Bool.false_eq_true, if_false]
      by_cases hc : cur.isEmpty = true
      · simp only [hc, if_true]
        rw [ih (lines ++ [w]) [], ih ([] ++ [w]) []]
        simp only [List.length_append, List.length_cons, List.length_nil]
        omega
      · rw [Bool.not_eq_true] at hc
        simp only [hc, Bool.false_eq_true, if_false]
        rw [ih (lines ++ [cur]) w, ih ([] ++ [cur]) w]
        simp only [List.length_append, List.length_cons, List.length_nil]
        omega

theorem extSize_le_length (fits : List Char → Bool) :
    ∀ (rest blk : List (List Char)), extSize fits blk rest ≤ rest.length := by
  intro rest
  induction rest with
  | nil => intro blk; simp [extSize]
  | cons r rs ih =>
    intro blk
    simp only [extSize, List.length_cons]
    split
    · have := ih (blk ++ [r])
      omega
    · omega

theorem grpSize_le_length (fits : List Char → Bool) (ws : List (List Char)) :
    grpSize fits ws ≤ ws.length := by
  cases ws with
  | nil => simp [grpSize]
  | cons w rest =>
    simp only [grpSize, List.length_cons]
    split
    · have := extSize_le_length fits rest [w]
      omega
    · omega

/-- A line that fits still fits after dropping trailing words (derived from
the single-step hypothesis `Hext`). -/
theorem fits_prefix (fits : List Char → Bool)
    (Hext : ∀ blk x, fits (joinWords (blk ++ [x])) = true →
      fits (joinWords blk) = true) :
    ∀ (ext blk : List (List Char)),
      fits (joinWords (blk ++ ext)) = true → fits (joinWords blk) = true := by
  intro ext
  induction ext with
  | nil => intro blk h; simpa using h
  | cons x xs ih =>
    intro blk h
    rw [List.append_cons] at h
    exact Hext blk x (ih (blk ++ [x]) h)

/-- The block extended by its greedy extension still fits. -/
theorem extSize_fits (fits : List Char → Bool) :
    ∀ (rest blk : List (List Char)), fits (joinWords blk) = true →
      fits (joinWords (blk ++ rest.take (extSize fits blk rest))) = true := by
  intro rest
  induction rest with
  | nil =>
    intro blk h
    rw [List.take_nil, List.append_nil]
    exact h
  | cons r rs ih =>
    intro blk h
    by_cases hf : fits (joinWords (blk ++ [r])) = true
    · have he : extSize fits blk (r :: rs) = extSize fits (blk ++ [r]) rs + 1 := by
        simp only [extSize, hf, if_true]
        omega
      rw [he, List.take_succ_cons]
      have h2 : blk ++ r :: rs.take (extSize fits (blk ++ [r]) rs) =
          (blk ++ [r]) ++ rs.take (extSize fits (blk ++ [r]) rs) := by
        rw [List.append_cons]
      rw [h2]
      exact ih (blk ++ [r]) hf
    · have he : extSize fits blk (r :: rs) = 0 := by
        simp [extSize, hf]
      rw [he, List.take_zero, List.append_nil]
      exact h

/-- If a block extension of `k` words fits, the greedy extension absorbs at
least `k` words. -/
theorem extSize_ge (fits : List Char → Bool)
    (Hext : ∀ blk x, fits (joinWords (blk ++ [x])) = true →
      fits (joinWords blk) = true) :
    ∀ (rest blk : List (List Char)) (k : ℕ), k ≤ rest.length →
      fits (joinWords (blk ++ rest.take k)) = true →
      k ≤ extSize fits blk rest := by
  intro rest
  induction rest with
  | nil =>
    intro blk k hk _
    have h0 : extSize fits blk [] = 0 := rfl
    simp only [List.length_nil] at hk
    omega
  | cons r rs ih =>
    intro blk k hk h
    cases k with
    | zero => exact Nat.zero_le _
    | succ k =>
      rw [List.take_succ_cons, List.append_cons] at h
      have hblkr : fits (joinWords (blk ++ [r])) = true :=
        fits_prefix fits Hext (rs.take k) (blk ++ [r]) h
      simp only [extSize, hblkr, if_true]
      have hk' : k ≤ rs.length := by
        simp only [List.length_cons] at hk
        omega
      have := ih (blk ++ [r]) k hk' h
      omega

/-- The greedy first group of a word list with a fitting first word fits. -/
theorem grpSize_take_fits (fits : List Char → Bool) (w : List Char)
    (rest : List (List Char)) (hw : fits w = true) :
    fits (joinWords ((w :: rest).take (grpSize fits (w :: rest)))) = true := by
  have hgrp : grpSize fits (w :: rest) = 1 + extSize fits [w] rest := by
    simp [grpSize, hw]
  rw [hgrp, Nat.add_comm 1 (extSize fits [w] rest), List.take_succ_cons]
  have h2 : (w :: rest.take (extSize fits [w] rest)) =
      [w] ++ rest.take (extSize fits [w] rest) := rfl
  rw [h2]
  exact extSize_fits fits rest [w] hw

/-- The greedy word loop from a non-empty current block produces one line for
that block plus the chunk count of the words left after its extension. -/
theorem wrapWordGo_length_eq_chunk_aux (fits : List Char → Bool)
    (Hext : ∀ blk x, fits (joinWords (blk ++ [x])) = true →
      fits (joinWords blk) = true) :
    ∀ (ws blk : List (List Char)), (∀ w ∈ ws, w ≠ []) →
      blk ≠ [] → joinWords blk ≠ [] →
      (wrapWordGo fits ws [] (joinWords blk)).length =
        1 + chunkCount fits (ws.drop (extSize fits blk ws)) := by
  intro ws
  induction ws with
  | nil =>
    intro blk _ _ hjb
    simp only [wrapWordGo, extSize, List.drop_nil, chunkCount_nil,
      isEmpty_false_of_ne_nil hjb, Bool.false_eq_true, if_false]
    rfl
  | cons r rs ih =>
    intro blk hws hb hjb
    have hr : r ≠ [] := hws r (by simp)
    have hws' : ∀ w ∈ rs, w ≠ [] := fun w hw => hws w (by simp [hw])
    simp only [wrapWordGo, isEmpty_false_of_ne_nil hjb, Bool.false_eq_true,
      if_false]
    rw [← joinWords_append_single blk r hb]
    by_cases hf : fits (joinWords (blk ++ [r])) = true
    · simp only [hf, if_true]
      rw [ih (blk ++ [r]) hws' (by simp) (joinWords_append_single_ne_nil blk r hb)]
      simp only [extSize, hf, if_true]
      rw [show 1 + extSize fits (blk ++ [r]) rs =
        (extSize fits (blk ++ [r]) rs) + 1 from by omega, List.drop_succ_cons]
    · simp only [hf, Bool.false_eq_true, if_false]
      rw [wrapWordGo_length_acc fits rs ([] ++ [joinWords blk]) r]
      have hjr : joinWords [r] = r := rfl
      have ihr := ih [r] hws' (by simp) (by rw [hjr]; exact hr)
      rw [hjr] at ihr
      rw [ihr]
      have hz0 : extSize fits blk (r :: rs) = 0 := by
        simp [extSize, hf]
      rw [hz0, List.drop_zero, chunkCount_cons]
      have hgrp : grpSize fits (r :: rs) =
          if fits r then 1 + extSize fits [r] rs else 1 := rfl
      rw [hgrp]
      by_cases hfr : fits r = true
      · rw [if_pos hfr, Nat.add_comm 1 (extSize fits [r] rs), List.drop_succ_cons]
        simp only [List.length_append, List.length_cons, List.length_nil]
      · rw [if_neg hfr]
        have hz : extSize fits [r] rs = 0 := by
          cases rs with
          | nil => rfl
          | cons x xs =>
            simp only [extSize]
            have hnx : ¬(fits (joinWords ([r] ++ [x])) = true) := by
              intro hc
              exact hfr (by simpa [hjr] using Hext [r] x hc)
            simp only [hnx, Bool.false_eq_true, if_false]
        rw [hz, List.drop_zero, List.drop_one, List.tail_cons]
        simp only [List.length_append, List.length_cons, List.length_nil]

/-- The greedy word loop from an empty line partitions the words into exactly
`chunkCount` lines. -/
theorem wrapWordGo_length_eq_chunk (fits : List Char → Bool)
    (Hext : ∀ blk x, fits (joinWords (blk ++ [x])) = true →
      fits (joinWords blk) = true) :
    ∀ (ws : List (List Char)), (∀ w ∈ ws, w ≠ []) →
      (wrapWordGo fits ws [] []).length = chunkCount fits ws := by
  intro ws
  induction ws with
  | nil => simp [wrapWordGo, chunkCount_nil]
  | cons w rest ih =>
    intro hws
    have hw : w ≠ [] := hws w (by simp)
    have hws' : ∀ x ∈ rest, x ≠ [] := fun x hx => hws x (by simp [hx])
    simp only [wrapWordGo, List.isEmpty_nil, if_true]
    by_cases hf : fits w = true
    · simp only [hf, if_true]
      have haux := wrapWordGo_length_eq_chunk_aux fits Hext rest [w] hws'
        (by simp) (by simpa using hw)
      rw [show joinWords [w] = w from rfl] at haux
      rw [haux, chunkCount_cons]
      have hgrp : grpSize fits (w :: rest) = 1 + extSize fits [w] rest := by
        simp [grpSize, hf]
      rw [hgrp, Nat.add_comm 1 (extSize fits [w] rest), List.drop_succ_cons]
    · simp only [hf, Bool.false_eq_true, if_false]
      rw [wrapWordGo_length_acc fits rest ([] ++ [w]) [], chunkCount_cons]
      have hgrp : grpSize fits (w :: rest) = 1 := by
        simp [grpSize, hf]
      rw [hgrp, List.drop_one, List.tail_cons, ih hws']
      simp only [List.length_append, List.length_cons, List.length_nil]

/-- Core monotonicity of greedy grouping: for a wider threshold (`f₂` accepts
whatever `f₁` accepts, and removing words from a line never makes it stop
fitting under `f₂`), the grouping of any suffix under `f₂` has at most as
many groups as the whole list under `f₁`. -/
theorem chunkCount_mono_aux (f₁ f₂ : List Char → Bool)
    (H12 : ∀ s, f₁ s = true → f₂ s = true)
    (Hsub : ∀ a b c, f₂ (joinWords (a ++ b ++ c)) = true →
      f₂ (joinWords b) = true) :
    ∀ (n : ℕ) (t : List (List Char)), t.length ≤ n → ∀ d : ℕ,
      chunkCount f₂ (t.drop d) ≤ chunkCount f₁ t := by
  have Hext₂ : ∀ blk x, f₂ (joinWords (blk ++ [x])) = true →
      f₂ (joinWords blk) = true := by
    intro blk x h
    exact Hsub [] blk [x] (by simpa using h)
  intro n
  induction n with
  | zero =>
    intro t ht d
    have hnil : t = [] := List.eq_nil_of_length_eq_zero (Nat.le_zero.mp ht)
    subst hnil
    simp [chunkCount_nil]
  | succ n ih =>
    intro t ht d
    cases t with
    | nil => simp [chunkCount_nil]
    | cons w rest =>
      by_cases hend : (w :: rest).length ≤ d
      · rw [List.drop_eq_nil_of_le hend]
        simp [chunkCount_nil]
      · push_neg at hend
        rw [chunkCount_cons f₁ w rest]
        have hg1pos : 1 ≤ grpSize f₁ (w :: rest) := grpSize_pos f₁ w rest
        have hg1len : grpSize f₁ (w :: rest) ≤ (w :: rest).length :=
          grpSize_le_length f₁ (w :: rest)
        have hlenrec : ((w :: rest).drop (grpSize f₁ (w :: rest))).length ≤ n := by
          simp only [List.length_drop, List.length_cons]
          simp only [List.length_cons] at ht
          omega
        by_cases hdg : grpSize f₁ (w :: rest) ≤ d
        · have heq : (w :: rest).drop d =
              ((w :: rest).drop (grpSize f₁ (w :: rest))).drop
                (d - grpSize f₁ (w :: rest)) := by
            rw [List.drop_drop]
            congr 1
            omega
          rw [heq]
          have := ih ((w :: rest).drop (grpSize f₁ (w :: rest))) hlenrec
            (d - grpSize f₁ (w :: rest))
          omega
        · push_neg at hdg
          have hs_ne : (w :: rest).drop d ≠ [] := by
            have : 0 < ((w :: rest).drop d).length := by
              simp only [List.length_drop]
              omega
            exact List.ne_nil_of_length_pos this
          obtain ⟨s0, s', hs⟩ := List.exists_cons_of_ne_nil hs_ne
          have hK : grpSize f₁ (w :: rest) ≤ d + grpSize f₂ (s0 :: s') := by
            by_cases hw1 : f₁ w = true
            · have hfit : f₁ (joinWords ((w :: rest).take (grpSize f₁ (w :: rest)))) =
                  true := grpSize_take_fits f₁ w rest hw1
              have hf2 : f₂ (joinWords ((w :: rest).take (grpSize f₁ (w :: rest)))) =
                  true := H12 _ hfit
              have hsplit : (w :: rest).take (grpSize f₁ (w :: rest)) =
                  (w :: rest).take d ++
                    ((w :: rest).drop d).take (grpSize f₁ (w :: rest) - d) := by
                rw [show grpSize f₁ (w :: rest) =
                    d + (grpSize f₁ (w :: rest) - d) from by omega]
                rw [List.take_add]
                congr 2
                omega
              have hB : f₂ (joinWords
                  (((w :: rest).drop d).take (grpSize f₁ (w :: rest) - d))) = true := by
                apply Hsub ((w :: rest).take d) _ []
                rw [List.append_nil, ← hsplit]
                exact hf2
              rw [hs] at hB
              have hk1 : grpSize f₁ (w :: rest) - d =
                  (grpSize f₁ (w :: rest) - d - 1) + 1 := by omega
              rw [hk1, List.take_succ_cons] at hB
              have hB' : f₂ (joinWords
                  ([s0] ++ s'.take (grpSize f₁ (w :: rest) - d - 1))) = true := by
                simpa using hB
              have hfs0 : f₂ s0 = true := by
                have := fits_prefix f₂ Hext₂
                  (s'.take (grpSize f₁ (w :: rest) - d - 1)) [s0] hB'
                simpa [joinWords] using this
              have hg2 : grpSize f₂ (s0 :: s') = 1 + extSize f₂ [s0] s' := by
                simp [grpSize, hfs0]
              have hlen2 : grpSize f₁ (w :: rest) - d - 1 ≤ s'.length := by
                have hds : ((w :: rest).drop d).length =
                    (w :: rest).length - d := List.length_drop d (w :: rest)
                rw [hs] at hds
                simp only [List.length_cons] at hds hg1len ⊢
                omega
              have hext := extSize_ge f₂ Hext₂ s' [s0]
                (grpSize f₁ (w :: rest) - d - 1) hlen2 hB'
              rw [hg2]
              omega
            · have hg1 : grpSize f₁ (w :: rest) = 1 := by
                simp [grpSize, hw1]
              rw [hg1]
              have := grpSize_pos f₂ s0 s'
              omega
          rw [hs, chunkCount_cons f₂ s0 s']
          have hdrop1 : (s0 :: s').drop (grpSize f₂ (s0 :: s')) =
              (w :: rest).drop (grpSize f₂ (s0 :: s') + d) := by
            conv_lhs => rw [← hs]
            rw [List.drop_drop, hs]
            congr 1
            omega
          have hdrop2 : ((w :: rest).drop (grpSize f₁ (w :: rest))).drop
              (d + grpSize f₂ (s0 :: s') - grpSize f₁ (w :: rest)) =
              (w :: rest).drop (grpSize f₂ (s0 :: s') + d) := by
            rw [List.drop_drop]
            congr 1
            omega
          rw [hdrop1, ← hdrop2]
          have := ih ((w :: rest).drop (grpSize f₁ (w :: rest))) hlenrec
            (d + grpSize f₂ (s0 :: s') - grpSize f₁ (w :: rest))
          omega

/-! Properties of Python `str.split()` needed for the assembly. -/

theorem splitWsGo_words_ne_nil :
    ∀ (t : List Char) (pend : Option (List Char)),
      (∀ w', pend = some w' → w' ≠ []) →
      ∀ w ∈ splitWsGo t pend, w ≠ [] := by
  intro t
  induction t with
  | nil =>
    intro pend hp w hw
    cases pend with
    | none => simp [splitWsGo] at hw
    | some w' =>
      simp only [splitWsGo, List.mem_singleton] at hw
      subst hw
      exact hp w rfl
  | cons c rest ih =>
    intro pend hp w hw
    simp only [splitWsGo] at hw
    by_cases hc : pyIsSpace c = true
    · simp only [hc, if_true] at hw
      cases pend with
      | none => exact ih none (by simp) w hw
      | some w' =>
        rcases List.mem_cons.mp hw with h | h
        · subst h
          exact hp w rfl
        · exact ih none (by simp) w h
    · simp only [hc, Bool.false_eq_true, if_false] at hw
      exact ih (some ((pend.getD []) ++ [c])) (by intro w' he; cases he; simp) w hw

theorem splitWs_words_ne_nil (t : List Char) :
    ∀ w ∈ splitWs t, w ≠ [] :=
  splitWsGo_words_ne_nil t none (by simp)

theorem splitWsGo_some_ne_nil :
    ∀ (t w : List Char), splitWsGo t (some w) ≠ [] := by
  intro t
  induction t with
  | nil => intro w; simp [splitWsGo]
  | cons c rest ih =>
    intro w
    simp only [splitWsGo]
    by_cases hc : pyIsSpace c = true
    · simp [hc]
    · simp only [hc, Bool.false_eq_true, if_false, Option.getD_some]
      exact ih (w ++ [c])

theorem splitWs_ne_nil (t : List Char) (h : ¬(t.all pyIsSpace = true)) :
    splitWs t ≠ [] := by
  unfold splitWs
  induction t with
  | nil => simp at h
  | cons c rest ih =>
    simp only [splitWsGo]
    by_cases hc : pyIsSpace c = true
    · simp only [hc, if_true]
      apply ih
      simp only [List.all_cons, hc, Bool.true_and] at h
      exact h
    · simp only [hc, Bool.false_eq_true, if_false, Option.getD_none,
        List.nil_append]
      exact splitWsGo_some_ne_nil rest [c]

/-- The greedy word loop over non-empty words produces at least one line. -/
theorem wrapWordGo_length_pos (fits : List Char → Bool) :
    ∀ (ws : List (List Char)) (cur : List Char), (∀ w ∈ ws, w ≠ []) →
      (cur ≠ [] ∨ ws ≠ []) → 1 ≤ (wrapWordGo fits ws [] cur).length := by
  intro ws
  induction ws with
  | nil =>
    intro cur _ hne
    rcases hne with h | h
    · simp [wrapWordGo, isEmpty_false_of_ne_nil h]
    · exact absurd rfl h
  | cons w rest ih =>
    intro cur hws _
    have hw : w ≠ [] := hws w (by simp)
    have hws' : ∀ x ∈ rest, x ≠ [] := fun x hx => hws x (by simp [hx])
    simp only [wrapWordGo]
    by_cases hf : fits (if cur.isEmpty then w else cur ++ ' ' :: w) = true
    · simp only [hf, if_true]
      apply ih _ hws'
      left
      by_cases hc : cur.isEmpty = true
      · simpa [hc] using hw
      · rw [Bool.not_eq_true] at hc
        simp [hc]
    · simp only [hf, Bool.false_eq_true, if_false]
      by_cases hc : cur.isEmpty = true
      · simp only [hc, if_true]
        rw [wrapWordGo_length_acc fits rest ([] ++ [w]) []]
        simp
      · rw [Bool.not_eq_true] at hc
        simp only [hc, Bool.false_eq_true, if_false]
        rw [wrapWordGo_length_acc fits rest ([] ++ [cur]) w]
        simp

/-- The paragraph fold of `wrap_text_for_overlay_safe_word` never produces an
empty list (every paragraph contributes at least one line). -/
theorem wrapWordCore_ne_nil (fits : List Char → Bool) (text : List Char) :
    wrapWordCore fits text ≠ [] := by
  unfold wrapWordCore
  have key : ∀ (ps : List (List Char)) (acc : List (List Char)),
      acc.length + ps.length ≤
        (ps.foldl (fun lines p =>
          if p.all pyIsSpace then lines ++ [[]]
          else wrapWordGo fits (splitWs p) lines []) acc).length := by
    intro ps
    induction ps with
    | nil => intro acc; simp
    | cons p ps' ih =>
      intro acc
      simp only [List.foldl_cons, List.length_cons]
      refine le_trans ?_ (ih _)
      by_cases hb : p.all pyIsSpace = true
      · simp [hb]
        omega
      · simp only [hb, Bool.false_eq_true, if_false]
        rw [wrapWordGo_length_acc]
        have h1 : 1 ≤ (wrapWordGo fits (splitWs p) [] []).length :=
          wrapWordGo_length_pos fits (splitWs p) [] (splitWs_words_ne_nil p)
            (Or.inr (splitWs_ne_nil p hb))
        omega
  intro hc
  have h1 := key (splitOnNl text) []
  rw [hc] at h1
  simp only [List.length_nil, Nat.zero_add] at h1
  have h2 : splitOnNl text ≠ [] := by
    cases text with
    | nil => simp [splitOnNl]
    | cons c rest =>
      simp only [splitOnNl]
      split
      · simp
      · split
        · simp
        · simp
  have h3 : 1 ≤ (splitOnNl text).length := by
    cases he : splitOnNl text with
    | nil => exact absurd he h2
    | cons a as => simp
  omega

/-- Monotonicity of the paragraph fold in the width predicate. -/
theorem wrapWordCore_length_mono (f₁ f₂ : List Char → Bool)
    (Hext₁ : ∀ blk x, f₁ (joinWords (blk ++ [x])) = true →
      f₁ (joinWords blk) = true)
    (H12 : ∀ s, f₁ s = true → f₂ s = true)
    (Hsub : ∀ a b c, f₂ (joinWords (a ++ b ++ c)) = true →
      f₂ (joinWords b) = true)
    (text : List Char) :
    (wrapWordCore f₂ text).length ≤ (wrapWordCore f₁ text).length := by
  have Hext₂ : ∀ blk x, f₂ (joinWords (blk ++ [x])) = true →
      f₂ (joinWords blk) = true := by
    intro blk x h
    exact Hsub [] blk [x] (by simpa using h)
  unfold wrapWordCore
  have key : ∀ (ps : List (List Char)) (acc₁ acc₂ : List (List Char)),
      acc₂.length ≤ acc₁.length →
      (ps.foldl (fun lines p =>
        if p.all pyIsSpace then lines ++ [[]]
        else wrapWordGo f₂ (splitWs p) lines []) acc₂).length ≤
      (ps.foldl (fun lines p =>
        if p.all pyIsSpace then lines ++ [[]]
        else wrapWordGo f₁ (splitWs p) lines []) acc₁).length := by
    intro ps
    induction ps with
    | nil => intro acc₁ acc₂ hacc; simpa using hacc
    | cons p ps' ih =>
      intro acc₁ acc₂ hacc
      simp only [List.foldl_cons]
      apply ih
      by_cases hb : p.all pyIsSpace = true
      · simp only [hb, if_true, List.length_append, List.length_cons,
          List.length_nil]
        omega
      · simp only [hb, Bool.false_eq_true, if_false]
        rw [wrapWordGo_length_acc f₁, wrapWordGo_length_acc f₂]
        have hwords := splitWs_words_ne_nil p
        rw [wrapWordGo_length_eq_chunk f₁ Hext₁ (splitWs p) hwords,
          wrapWordGo_length_eq_chunk f₂ Hext₂ (splitWs p) hwords]
        have hm := chunkCount_mono_aux f₁ f₂ H12 Hsub (splitWs p).length
          (splitWs p) (le_refl _) 0
        rw [List.drop_zero] at hm
        omega
  exact key (splitOnNl text) [] [] (le_refl 0)

end TextOverlay

namespace TextOverlay

/-! ### Claim theorems -/

/-- C1: the render paths do not agree on the effective font size up to the
supersampling scale.  Failing input: a 100×100 image, target box
`(0, 0, 50, 21)`, `region.font_size = 30`, no bold.  The preview paths use
`max(8, min(int(21*0.6), 30)) = 12` while the 2× export uses
`max(8, min(int(42*0.6), 60)) = 25 ≠ 2*12`, so wrap capacity and line height
differ beyond the scale factor. -/
theorem c1_render_paths_font_size_divergence :
    previewLayoutFontSize 100 100 0 0 50 21 30 = 12 ∧
    exportLayoutFontSize 100 100 0 0 50 21 30 = 25 ∧
    exportLayoutFontSize 100 100 0 0 50 21 30 ≠
      2 * previewLayoutFontSize 100 100 0 0 50 21 30 := by
  refine ⟨by decide, by decide, by decide⟩

/-- C2: with the documented fallback measurement at `max_width = 15`,
`font_size = 10` (so a line fits iff it has at most 2 characters),
`wrap_text_for_box` on `"ab cd"` duplicates the word `"ab"`: when appending
the space overflows, the overflow branch writes the stale `word` variable
into the new current line.  The concatenated output no longer preserves each
non-whitespace input character exactly once. -/
theorem c2_char_wrap_duplicates_stale_word :
    wrapCharFallback 15 10 "ab cd".data =
      [['a', 'b'], ['a', 'b'], ['c', 'd']] ∧
    (wrapCharFallback 15 10 "ab cd".data).flatten.filter (fun c => !(pyIsSpace c)) ≠
      "ab cd".data.filter (fun c => !(pyIsSpace c)) := by
  refine ⟨by decide, by decide⟩

/-- C3 counterexample: for a box of height 10 the claimed bound
`effectiveFontSize ≤ floor(boxHeight * 0.6)` fails (the lower clamp 8 wins
over the cap 6); and the export path's bold inflation exceeds the 60% cap
(`boldInflate 2 60 = 75 > 60`). -/
theorem c3_small_box_exceeds_cap :
    effFontSize 10 20 = 8 ∧ ¬(effFontSize 10 20 ≤ Int.fdiv (3 * 10) 5) ∧
    boldInflate 2 (effFontSize 100 60) = 75 ∧
    ¬(boldInflate 2 (effFontSize 100 60) ≤ Int.fdiv (3 * 100) 5) := by
  refine ⟨by decide, by decide, by decide, by decide⟩

/-- C3 (amended): the base effective font size is
`max(8, min(floor(bh*0.6), fontSize))`; it is always at least 8, and it is at
most `floor(bh*0.6)` whenever that cap is itself at least 8 (for shorter
boxes the lower clamp wins).  The overflow-shrink step keeps the font size
between 8 and its input value.  (The export path's bold inflation,
`boldInflate`, is applied after this and can exceed the cap, as the
counterexample records.) -/
theorem c3_effective_font_size_bounds :
    (∀ bh fs : ℤ, 8 ≤ effFontSize bh fs) ∧
    (∀ bh fs : ℤ, 8 ≤ Int.fdiv (3 * bh) 5 →
      effFontSize bh fs ≤ Int.fdiv (3 * bh) 5) ∧
    (∀ (wrapAt : ℤ → List (List Char)) (spacing : ℚ) (availH fs0 : ℤ),
      8 ≤ fs0 → 1 ≤ availH →
      8 ≤ (adjustHeight wrapAt fs0 spacing availH).fontSize ∧
      (adjustHeight wrapAt fs0 spacing availH).fontSize ≤ fs0) := by
  refine ⟨?_, ?_, ?_⟩
  · intro bh fs
    simp only [effFontSize]
    omega
  · intro bh fs h
    simp only [effFontSize]
    omega
  · intro wrapAt spacing availH fs0 h8 hA
    simp only [adjustHeight]
    split
    · exact ⟨h8, le_refl _⟩
    · split
      · exact ⟨h8, le_refl _⟩
      · rename_i h0 h1
        constructor
        · exact le_max_left _ _
        · have hn : (0 : ℤ) <
              (((wrapAt fs0).length : ℤ) * max fs0 (Int.fdiv availH ((wrapAt fs0).length : ℤ))) := by
            omega
          have hle : availH ≤
              ((wrapAt fs0).length : ℤ) * max fs0 (Int.fdiv availH ((wrapAt fs0).length : ℤ)) := by
            omega
          set D : ℤ :=
            ((wrapAt fs0).length : ℤ) * max fs0 (Int.fdiv availH ((wrapAt fs0).length : ℤ)) with hD
          have hDQ : (0 : ℚ) < (D : ℚ) := by exact_mod_cast hn
          have hq : (availH : ℚ) / (D : ℚ) ≤ 1 := by
            rw [div_le_one hDQ]
            exact_mod_cast hle
          have hfs0 : (0 : ℚ) ≤ (fs0 : ℚ) := by exact_mod_cast le_trans (by norm_num) h8
          have hmul : (fs0 : ℚ) * ((availH : ℚ) / (D : ℚ)) ≤ (fs0 : ℚ) :=
            mul_le_of_le_one_right hfs0 hq
          have hfl : ⌊(fs0 : ℚ) * ((availH : ℚ) / (D : ℚ))⌋ ≤ fs0 := by
            calc ⌊(fs0 : ℚ) * ((availH : ℚ) / (D : ℚ))⌋ ≤ ⌊(fs0 : ℚ)⌋ :=
                  Int.floor_le_floor hmul
              _ = fs0 := Int.floor_intCast fs0
          exact max_le h8 hfl

/-- C3 witness: concrete instantiation of the amended bounds. -/
theorem c3_effective_font_size_bounds_witness :
    8 ≤ effFontSize 40 30 ∧ effFontSize 40 30 ≤ Int.fdiv (3 * 40) 5 ∧
    8 ≤ (adjustHeight (fun _ => [['a'], ['a'], ['a'], ['a'], ['a']]) 10 (6 / 5) 30).fontSize ∧
    (adjustHeight (fun _ => [['a'], ['a'], ['a'], ['a'], ['a']]) 10 (6 / 5) 30).fontSize ≤ 10 :=
  ⟨c3_effective_font_size_bounds.1 40 30,
   c3_effective_font_size_bounds.2.1 40 30 (by decide),
   (c3_effective_font_size_bounds.2.2 (fun _ => [['a'], ['a'], ['a'], ['a'], ['a']])
     (6 / 5) 30 10 (by norm_num) (by norm_num)).1,
   (c3_effective_font_size_bounds.2.2 (fun _ => [['a'], ['a'], ['a'], ['a'], ['a']])
     (6 / 5) 30 10 (by norm_num) (by norm_num)).2⟩

/-- C4: for every line whose vertical position plus font size exceeds the
sub-rectangle bottom beyond the tolerance, the truncation loop of the preview
paths strips the whole line (its condition does not depend on the stripped
text, so no truncation ever "fits") and nothing is drawn; the export path
skips such a line directly.  This is the claim's guarantee: an overflowing
line is never drawn, and a line is dropped only when no fitting truncation
exists — which is always the case here. -/
theorem c4_overflow_line_never_drawn (textY fontSize textY2 tolerance : ℤ)
    (line : List Char) (h : vOverflow textY fontSize textY2 tolerance = true) :
    truncateLoop (vOverflow textY fontSize textY2 tolerance) line = [] ∧
    previewDrawnLine (vOverflow textY fontSize textY2 tolerance) line = none ∧
    exportDrawnLine (vOverflow textY fontSize textY2 tolerance) line = none := by
  rw [h]
  have ht : truncateLoop true line = [] :=
    truncateGo_true_eq_nil line.length line (le_refl _)
  refine ⟨ht, ?_, rfl⟩
  simp [previewDrawnLine, ht]

/-- C4 witness: a line at `text_y = 100` with font size 12 against a
sub-rectangle bottom of 90 and tolerance 20 (112 > 110). -/
theorem c4_overflow_line_never_drawn_witness :
    truncateLoop (vOverflow 100 12 90 20) ['a', 'b'] = [] ∧
    previewDrawnLine (vOverflow 100 12 90 20) ['a', 'b'] = none ∧
    exportDrawnLine (vOverflow 100 12 90 20) ['a', 'b'] = none :=
  c4_overflow_line_never_drawn 100 12 90 20 ['a', 'b'] (by decide)

/-- C6 counterexample: dragging a 2×2 box at `(50, 50, 52, 52)` by
`dx = 60` on a 100×100 image yields `(98, 50, 99, 52)` — the final safety
clamp (`x2 = max(x1 + 1, min(x2, img_w - 1))`) cuts the width to 1px,
violating the claimed 2px minimum. -/
theorem c6_move_to_edge_width_one :
    moveBBox 100 100 (50, 50, 52, 52) 60 0 = (98, 50, 99, 52) ∧
    ¬(2 ≤ (moveBBox 100 100 (50, 50, 52, 52) 60 0).2.2.1 -
          (moveBBox 100 100 (50, 50, 52, 52) 60 0).1) := by
  refine ⟨by decide, by decide⟩

/-- C6 (amended): after every interactive mutation (drag-move or any of the
four resize handles) on an image of size at least 2×2, the resulting box lies
within the image's pixel bounds (`0 ≤ x1 < x2 ≤ imgW - 1`, likewise
vertically) with a minimum width and height of 1px (not the claimed 2px). -/
theorem c6_mutation_clamp_bounds (imgW imgH : ℤ) (bbox : ℤ × ℤ × ℤ × ℤ)
    (dx dy : ℤ) (hw : 2 ≤ imgW) (hh : 2 ≤ imgH) :
    bboxWithin imgW imgH (moveBBox imgW imgH bbox dx dy) ∧
    ∀ h : ResizeHandle, bboxWithin imgW imgH (resizeBBox imgW imgH bbox dx dy h) := by
  constructor
  · exact safeClampBBox_within imgW imgH _ _ _ _ hw hh
  · intro h
    cases h <;> exact safeClampBBox_within imgW imgH _ _ _ _ hw hh

/-- C6 witness: concrete mutation results are in bounds. -/
theorem c6_mutation_clamp_bounds_witness :
    bboxWithin 100 100 (moveBBox 100 100 (10, 10, 50, 50) 5 7) ∧
    bboxWithin 100 100 (resizeBBox 100 100 (10, 10, 50, 50) 5 7 ResizeHandle.se) :=
  ⟨(c6_mutation_clamp_bounds 100 100 (10, 10, 50, 50) 5 7 (by norm_num) (by norm_num)).1,
   (c6_mutation_clamp_bounds 100 100 (10, 10, 50, 50) 5 7 (by norm_num) (by norm_num)).2
     ResizeHandle.se⟩

/-- C8: when the character-boundary scan raises internally (the one reachable
internal exception not handled by the measurement fallback is the `NameError`
from the stale `word`, modelled as `cwRun ... = none`), the enclosing
`except` of `wrap_text_for_box` returns `[text]` instead of propagating.
(The word-boundary function's loop has no internal failure point beyond the
measurement fallback; its outer handler is the same.) -/
theorem c8_wrap_internal_error_returns_text (fits : List Char → Bool)
    (text : List Char) (hblank : ¬(text.all pyIsSpace = true))
    (hrun : cwRun fits text ⟨[], [], none⟩ none = none) :
    wrap_text_for_box fits text = [text] := by
  simp only [wrap_text_for_box, if_neg hblank, hrun]

/-- C8 witness: text `" a"` with a measurement under which nothing fits (the
fallback estimate at `max_width = 1`, `font_size = 10`): the leading space
overflows with no `word` assigned yet, raising `NameError`, and the function
returns the original text as a single line. -/
theorem c8_wrap_internal_error_returns_text_witness :
    wrap_text_for_box (fun s => decide (3 * (s.length : ℤ) * 10 ≤ 5 * 1)) " a".data =
      [" a".data] :=
  c8_wrap_internal_error_returns_text
    (fun s => decide (3 * (s.length : ℤ) * 10 ≤ 5 * 1)) " a".data
    (by decide) (by decide)

/-- C10: the word-boundary function clamps its inputs
(`max_width = max(20, max_width)`, `font_size = max(6, font_size)`), so any
call with `maxWidth ≤ 20` equals the call at 20 and any call with
`fontSize ≤ 6` equals the call at 6; the character-boundary function has no
such clamp and its output on a very narrow box (width 1) differs from the
output at width 20. -/
theorem c10_word_wrap_clamps_char_wrap_does_not :
    (∀ (w fs : ℤ) (t : List Char), w ≤ 20 →
      wrapWordFallback w fs t = wrapWordFallback 20 fs t) ∧
    (∀ (w fs : ℤ) (t : List Char), fs ≤ 6 →
      wrapWordFallback w fs t = wrapWordFallback w 6 t) ∧
    wrapCharFallback 1 10 "가가가가".data ≠ wrapCharFallback 20 10 "가가가가".data := by
  refine ⟨?_, ?_, by decide⟩
  · intro w fs t hw
    have h1 : max (20 : ℤ) w = 20 := by omega
    have h2 : max (20 : ℤ) 20 = 20 := by omega
    simp only [wrapWordFallback, h1, h2]
  · intro w fs t hfs
    have h1 : max (6 : ℤ) fs = 6 := by omega
    have h2 : max (6 : ℤ) 6 = 6 := by omega
    simp only [wrapWordFallback, h1, h2]

/-- C10 witness: concrete instances of both clamp identities. -/
theorem c10_word_wrap_clamps_witness :
    wrapWordFallback 5 10 "hi ho".data = wrapWordFallback 20 10 "hi ho".data ∧
    wrapWordFallback 25 3 "hi ho".data = wrapWordFallback 25 6 "hi ho".data :=
  ⟨c10_word_wrap_clamps_char_wrap_does_not.1 5 10 "hi ho".data (by norm_num),
   c10_word_wrap_clamps_char_wrap_does_not.2.1 25 3 "hi ho".data (by norm_num)⟩

/-- C5: the height-overflow adjustment behaves exactly as claimed.  With
`n0` lines wrapped at the requested size and `lh0 = ⌊fs0 * spacing⌋`: if
`n0 * lh0` fits, nothing changes; otherwise the line height is first
compressed to `availH // n0` but never below the font size
(`max fs0 (availH // n0)`); if the block still overflows, the font size is
scaled by `availH / totalHeight` (the compressed total) and clamped to a
minimum of 8, the text is re-wrapped exactly once at the new size, and line
height and total height are recomputed once more from the new line count. -/
theorem c5_height_overflow_adjustment (wrapAt : ℤ → List (List Char))
    (fs0 : ℤ) (spacing : ℚ) (availH : ℤ) :
    (((wrapAt fs0).length : ℤ) * ⌊(fs0 : ℚ) * spacing⌋ ≤ availH →
      adjustHeight wrapAt fs0 spacing availH =
        ⟨fs0, ⌊(fs0 : ℚ) * spacing⌋,
         ((wrapAt fs0).length : ℤ) * ⌊(fs0 : ℚ) * spacing⌋, wrapAt fs0⟩) ∧
    (¬(((wrapAt fs0).length : ℤ) * ⌊(fs0 : ℚ) * spacing⌋ ≤ availH) →
      fs0 ≤ max fs0 (Int.fdiv availH ((wrapAt fs0).length : ℤ)) ∧
      (((wrapAt fs0).length : ℤ) *
          max fs0 (Int.fdiv availH ((wrapAt fs0).length : ℤ)) ≤ availH →
        adjustHeight wrapAt fs0 spacing availH =
          ⟨fs0, max fs0 (Int.fdiv availH ((wrapAt fs0).length : ℤ)),
           ((wrapAt fs0).length : ℤ) *
             max fs0 (Int.fdiv availH ((wrapAt fs0).length : ℤ)), wrapAt fs0⟩) ∧
      (¬(((wrapAt fs0).length : ℤ) *
          max fs0 (Int.fdiv availH ((wrapAt fs0).length : ℤ)) ≤ availH) →
        adjustHeight wrapAt fs0 spacing availH =
          ⟨max 8 ⌊(fs0 : ℚ) * ((availH : ℚ) /
             ((((wrapAt fs0).length : ℤ) *
               max fs0 (Int.fdiv availH ((wrapAt fs0).length : ℤ)) : ℤ) : ℚ))⌋,
           max (max 8 ⌊(fs0 : ℚ) * ((availH : ℚ) /
             ((((wrapAt fs0).length : ℤ) *
               max fs0 (Int.fdiv availH ((wrapAt fs0).length : ℤ)) : ℤ) : ℚ))⌋)
             (Int.fdiv availH
               ((wrapAt (max 8 ⌊(fs0 : ℚ) * ((availH : ℚ) /
                 ((((wrapAt fs0).length : ℤ) *
                   max fs0 (Int.fdiv availH ((wrapAt fs0).length : ℤ)) : ℤ) : ℚ))⌋)).length : ℤ)),
           ((wrapAt (max 8 ⌊(fs0 : ℚ) * ((availH : ℚ) /
               ((((wrapAt fs0).length : ℤ) *
                 max fs0 (Int.fdiv availH ((wrapAt fs0).length : ℤ)) : ℤ) : ℚ))⌋)).length : ℤ) *
             max (max 8 ⌊(fs0 : ℚ) * ((availH : ℚ) /
               ((((wrapAt fs0).length : ℤ) *
                 max fs0 (Int.fdiv availH ((wrapAt fs0).length : ℤ)) : ℤ) : ℚ))⌋)
               (Int.fdiv availH
                 ((wrapAt (max 8 ⌊(fs0 : ℚ) * ((availH : ℚ) /
                   ((((wrapAt fs0).length : ℤ) *
                     max fs0 (Int.fdiv availH ((wrapAt fs0).length : ℤ)) : ℤ) : ℚ))⌋)).length : ℤ)),
           wrapAt (max 8 ⌊(fs0 : ℚ) * ((availH : ℚ) /
             ((((wrapAt fs0).length : ℤ) *
               max fs0 (Int.fdiv availH ((wrapAt fs0).length : ℤ)) : ℤ) : ℚ))⌋)⟩)) := by
  refine ⟨?_, ?_⟩
  · intro h1
    simp only [adjustHeight, if_pos h1]
  · intro h1
    refine ⟨le_max_left _ _, ?_, ?_⟩
    · intro h2
      simp only [adjustHeight, if_neg h1, if_pos h2]
    · intro h2
      simp only [adjustHeight, if_neg h1, if_neg h2]

/-- C5 witness: 5 lines at font size 10 and spacing 1.2 into a height of 30:
line height 12 → compressed to `max 10 (30 // 5) = 10` → still 50 > 30 →
font scaled to `max 8 ⌊10 * 30/50⌋ = 8`, re-wrapped (same 5 lines here),
line height `max 8 6 = 8`, total `40`. -/
theorem c5_height_overflow_adjustment_witness :
    adjustHeight (fun _ => [['a'], ['a'], ['a'], ['a'], ['a']]) 10 (6 / 5) 30 =
      ⟨8, 8, 40, [['a'], ['a'], ['a'], ['a'], ['a']]⟩ := by
  have h := ((c5_height_overflow_adjustment
      (fun _ => [['a'], ['a'], ['a'], ['a'], ['a']]) 10 (6 / 5) 30).2
        (by norm_num)).2.2 (by decide)
  rw [h]
  norm_num [FitResult.mk.injEq,
    show ([['a'], ['a'], ['a'], ['a'], ['a']] : List (List Char)).length = 5 from rfl,
    show Int.fdiv (30 : ℤ) 5 = 6 from by decide,
    show ((10 : ℤ) ⊔ 6) = 10 from by decide,
    show ((8 : ℤ) ⊔ 6) = 8 from by decide]

/-- C7 counterexample: with a custom registry mapping `"Arial"` to an
existing, loadable `"mycustom.ttf"` and an existing, loadable system
`arialbd.ttf`, the bold-aware resolver (`_load_pil_font_with_bold` at
`bold_level = 1`) returns the system bold file — it never consults the
custom registry before its family candidates — while the plain resolver
returns the custom font first, as the claim requires of every call. -/
theorem c7_bold_path_skips_custom_font :
    loadPilFontWithBold
      (fun p => p == "mycustom.ttf" || p == "C:/Windows/Fonts/arialbd.ttf")
      (fun p => p == "mycustom.ttf" || p == "C:/Windows/Fonts/arialbd.ttf")
      id "appdata" [("Arial", "mycustom.ttf")] "Arial" 20 1 =
      FontHandle.file "C:/Windows/Fonts/arialbd.ttf" 20 ∧
    load_font_for_overlay
      (fun p => p == "mycustom.ttf" || p == "C:/Windows/Fonts/arialbd.ttf")
      (fun p => p == "mycustom.ttf" || p == "C:/Windows/Fonts/arialbd.ttf")
      id [("Arial", "mycustom.ttf")] "Arial" 20 =
      FontHandle.file "mycustom.ttf" 20 ∧
    FontHandle.file "C:/Windows/Fonts/arialbd.ttf" (20 : ℤ) ≠
      FontHandle.file "mycustom.ttf" 20 := by
  refine ⟨by decide, by decide, by decide⟩

/-- C7 (amended): the plain resolver `load_font_for_overlay` is total (always
a handle, `builtin` as last resort) and returns exactly the first usable
candidate of the fixed order: custom registry, then the per-family system
candidates, then the default fallbacks — being a pure function of
`(present, loadable, rp, customFonts, family, size)`, repeated calls under an
unchanged filesystem return equal handles.  The bold-aware resolver tries its
extra-bold → bold → base family candidates first and reaches the custom
registry only through its final fallback to the plain resolver: whenever any
bold-chain candidate is usable, the custom registry is ignored. -/
theorem c7_resolver_order_total (present loadable : String → Bool)
    (rp : String → String) (localAppData : String) (customFonts : CustomFonts)
    (family : String) (size boldLevel : ℤ) :
    (load_font_for_overlay present loadable rp customFonts family size =
      match firstUsable present loadable (resolverCandidates rp customFonts family) with
      | some l => FontHandle.file l size
      | none => FontHandle.builtin) ∧
    (∀ h : FontHandle,
      tryPathsRaw present loadable size
        ((if 2 ≤ boldLevel then (boldFontCandidates rp localAppData family).2.2 else []) ++
         (if 1 ≤ boldLevel then (boldFontCandidates rp localAppData family).2.1 else []) ++
         (boldFontCandidates rp localAppData family).1) = some h →
      loadPilFontWithBold present loadable rp localAppData customFonts family
        size boldLevel = h) ∧
    (tryPathsRaw present loadable size
        ((if 2 ≤ boldLevel then (boldFontCandidates rp localAppData family).2.2 else []) ++
         (if 1 ≤ boldLevel then (boldFontCandidates rp localAppData family).2.1 else []) ++
         (boldFontCandidates rp localAppData family).1) = none →
      loadPilFontWithBold present loadable rp localAppData customFonts family
        size boldLevel =
        load_font_for_overlay present loadable rp customFonts family size) := by
  have hTail :
      (match
        (if family ∈ sysFontNames then
          tryPaths present loadable rp size (sysFontPaths rp family)
        else none) with
      | some h => h
      | none =>
        match tryPaths present loadable rp size (defaultFontPaths rp) with
        | some h => h
        | none => FontHandle.builtin) =
      match firstUsable present loadable
        ((if family ∈ sysFontNames then
            (sysFontPaths rp family).map (fun p => (p, rp p))
          else []) ++ (defaultFontPaths rp).map (fun p => (p, rp p))) with
      | some l => FontHandle.file l size
      | none => FontHandle.builtin := by
    rw [firstUsable_append]
    by_cases hf : family ∈ sysFontNames
    · simp only [if_pos hf, tryPaths_eq_firstUsable]
      cases hs : firstUsable present loadable
          ((sysFontPaths rp family).map fun p => (p, rp p)) with
      | some l => simp only [hs, Option.map_some']
      | none =>
        simp only [hs, Option.map_none']
        cases hd : firstUsable present loadable
            ((defaultFontPaths rp).map fun p => (p, rp p)) with
        | some l => simp only [hd, Option.map_some']
        | none => simp only [hd, Option.map_none']
    · simp only [if_neg hf, firstUsable_nil, tryPaths_eq_firstUsable]
      cases firstUsable present loadable
          ((defaultFontPaths rp).map fun p => (p, rp p)) <;> rfl
  refine ⟨?_, ?_, ?_⟩
  · simp only [load_font_for_overlay, resolverCandidates]
    rw [List.append_assoc, firstUsable_append]
    cases hc : List.lookup family customFonts with
    | none =>
      simp only [firstUsable_nil]
      exact hTail
    | some p =>
      simp only [firstUsable_cons, firstUsable_nil]
      by_cases hp : (present p && loadable p) = true
      · simp only [if_pos hp]
      · simp only [if_neg hp]
        exact hTail
  · intro h hh
    simp only [loadPilFontWithBold, hh]
  · intro hh
    simp only [loadPilFontWithBold, hh]

/-- C7 witness: with an empty filesystem every candidate fails and both
resolvers return the built-in default handle. -/
theorem c7_resolver_order_total_witness :
    (load_font_for_overlay (fun _ => false) (fun _ => false) id [] "Arial" 20 =
      match firstUsable (fun _ => false) (fun _ => false)
        (resolverCandidates id [] "Arial") with
      | some l => FontHandle.file l 20
      | none => FontHandle.builtin) ∧
    loadPilFontWithBold (fun _ => false) (fun _ => false) id "appdata" []
      "Arial" 20 1 =
      load_font_for_overlay (fun _ => false) (fun _ => false) id [] "Arial" 20 := by
  refine ⟨?_, ?_⟩
  · exact (c7_resolver_order_total (fun _ => false) (fun _ => false) id "appdata"
      [] "Arial" 20 1).1
  · exact (c7_resolver_order_total (fun _ => false) (fun _ => false) id "appdata"
      [] "Arial" 20 1).2.2 (by decide)

/-- C9 counterexample: the character-boundary wrap's line count is not
monotone in `maxWidth`.  With the fallback measurement at `font_size = 5`,
the text `"abc d"` wraps to 2 lines at width 6 but to 3 lines at width 9: at
the larger width the space overflow duplicates the stale word `"abc"`. -/
theorem c9_char_wrap_line_count_not_monotone :
    (wrapCharFallback 6 5 "abc d".data).length = 2 ∧
    (wrapCharFallback 9 5 "abc d".data).length = 3 ∧
    ¬((wrapCharFallback 9 5 "abc d".data).length ≤
      (wrapCharFallback 6 5 "abc d".data).length) := by
  refine ⟨by decide, by decide, by decide⟩

/-- C9 (amended): the word-boundary wrap's line count is monotonically
non-increasing in the width threshold, for every additive font width `cw` and
every text (the character-boundary wrap violates this, see the
counterexample).  `wordFits cw W` is the measurement "joined line is at most
`W` wide"; both the source's clamped threshold `max(20, max_width)` and the
fallback estimate's scaled threshold are monotone images of `max_width`, so
this covers every call of `wrap_text_for_overlay_safe_word`. -/
theorem c9_word_wrap_line_count_monotone (cw : Char → ℕ) (W1 W2 : ℤ)
    (text : List Char) (h : W1 ≤ W2) :
    (wrap_text_for_overlay_safe_word (wordFits cw W2) text).length ≤
      (wrap_text_for_overlay_safe_word (wordFits cw W1) text).length := by
  have H12 : ∀ s, wordFits cw W1 s = true → wordFits cw W2 s = true := by
    intro s hs
    simp only [wordFits, decide_eq_true_eq] at hs ⊢
    omega
  have Hsub : ∀ a b c, wordFits cw W2 (joinWords (a ++ b ++ c)) = true →
      wordFits cw W2 (joinWords b) = true := by
    intro a b c hs
    simp only [wordFits, decide_eq_true_eq] at hs ⊢
    have := lineW_joinWords_infix cw a b c
    omega
  have Hext₁ : ∀ blk x, wordFits cw W1 (joinWords (blk ++ [x])) = true →
      wordFits cw W1 (joinWords blk) = true := by
    intro blk x hs
    simp only [wordFits, decide_eq_true_eq] at hs ⊢
    have := lineW_joinWords_le_right cw blk [x]
    omega
  unfold wrap_text_for_overlay_safe_word
  by_cases hb : text.all pyIsSpace = true
  · simp [hb]
  · simp only [hb, Bool.false_eq_true, if_false]
    have h1 := wrapWordCore_ne_nil (wordFits cw W1) text
    have h2 := wrapWordCore_ne_nil (wordFits cw W2) text
    simp only [isEmpty_false_of_ne_nil h1, isEmpty_false_of_ne_nil h2,
      Bool.false_eq_true, if_false]
    exact wrapWordCore_length_mono (wordFits cw W1) (wordFits cw W2)
      Hext₁ H12 Hsub text

/-- C9 witness: concrete instance of the word-wrap monotonicity at widths
30 ≤ 50 with a constant 6px character width. -/
theorem c9_word_wrap_line_count_monotone_witness :
    (wrap_text_for_overlay_safe_word (wordFits (fun _ => 6) 50)
        "hello world foo".data).length ≤
      (wrap_text_for_overlay_safe_word (wordFits (fun _ => 6) 30)
        "hello world foo".data).length :=
  c9_word_wrap_line_count_monotone (fun _ => 6) 30 50 "hello world foo".data
    (by norm_num)

end TextOverlay
